import Mathlib

/-
  Verification of the forge CLI coordination core (forge/cli.py) against its
  natural-language specification.

  Shallow embedding conventions:
  * The eventlet green-thread executor is modelled twice: `async_map` is the
    direct sequential semantics (spawn = map, then collect in input order),
    and `async_map_scheduled` additionally takes an explicit completion
    schedule so that independence from completion timing can be stated.
  * External collaborators (docker, git, kubectl, the registry, GitHub) are
    modelled as oracle functions or as response data passed in.
  * Python truthiness of strings is modelled as inequality with "".
-/

/- ===================== Executor (cli.py: OMIT, async_map) ===================== -/

/-- The result of the mapped function: either the distinguished skip
sentinel `OMIT = object()` or a real value. -/
inductive MapResult (β : Type) : Type where
  | OMIT : MapResult β
  | value : β → MapResult β
deriving DecidableEq, Repr

/-- Direct embedding of `async_map(fun, sequence)`: spawn one task per item
(each spawned task deterministically computes `f item`), then wait on each
thread in input order, yielding the results that are not `OMIT`. -/
def async_map {α β : Type} (f : α → MapResult β) (sequence : List α) : List β :=
  (sequence.map f).foldr (fun r acc => match r with | .OMIT => acc | .value b => b :: acc) []

/-- One completion step of the scheduled executor semantics: thread `i`
finishes and stores its result. Out-of-range indices do nothing. -/
def spawnStep {α β : Type} (f : α → MapResult β) (items : List α)
    (st : List (Option (MapResult β))) (i : Nat) : List (Option (MapResult β)) :=
  match items[i]? with
  | some a => st.set i (some (f a))
  | none => st

/-- Run all spawned threads to completion in the order given by `schedule`
(a list of thread indices); the result slots start out empty. -/
def runThreads {α β : Type} (f : α → MapResult β) (items : List α)
    (schedule : List Nat) : List (Option (MapResult β)) :=
  schedule.foldl (spawnStep f items) (List.replicate items.length none)

/-- Collect finished results in input order, dropping `OMIT`. -/
def collectResults {β : Type} (st : List (Option (MapResult β))) : List β :=
  st.foldr (fun r acc => match r with | some (.value b) => b :: acc | _ => acc) []

/-- Scheduled semantics of `async_map`: threads complete in `schedule` order,
results are collected in input order afterwards. -/
def async_map_scheduled {α β : Type} (f : α → MapResult β) (items : List α)
    (schedule : List Nat) : List β :=
  collectResults (runThreads f items schedule)

/-- Turn a `MapResult` into an `Option` (skip marker becomes `none`). -/
def keepValue {β : Type} : MapResult β → Option β
  | .OMIT => none
  | .value b => some b

/-- Test for the skip marker. -/
def isOMIT {β : Type} : MapResult β → Bool
  | .OMIT => true
  | .value _ => false

theorem length_spawnStep {α β : Type} (f : α → MapResult β) (items : List α)
    (st : List (Option (MapResult β))) (i : Nat) :
    (spawnStep f items st i).length = st.length := by
  unfold spawnStep
  split <;> simp

theorem foldl_spawnStep_getElem? {α β : Type} (f : α → MapResult β) (items : List α)
    (schedule : List Nat) (st : List (Option (MapResult β)))
    (hst : st.length = items.length) (j : Nat) :
    (schedule.foldl (spawnStep f items) st)[j]? =
      if j ∈ schedule ∧ j < items.length then (items[j]?).map (fun a => some (f a))
      else st[j]? := by
  induction schedule generalizing st with
  | nil => simp
  | cons i rest ih =>
    have hlen : (spawnStep f items st i).length = items.length := by
      rw [length_spawnStep, hst]
    rw [List.foldl_cons, ih _ hlen]
    by_cases hjn : j < items.length
    · by_cases hjr : j ∈ rest
      · rw [if_pos ⟨hjr, hjn⟩, if_pos ⟨List.mem_cons_of_mem i hjr, hjn⟩]
      · by_cases hji : j = i
        · subst hji
          rw [if_neg (fun h => hjr h.1), if_pos ⟨List.mem_cons_self j rest, hjn⟩]
          unfold spawnStep
          rw [List.getElem?_eq_getElem hjn]
          simp only [Option.map_some]
          exact List.getElem?_set_self (hst ▸ hjn)
        · rw [if_neg (fun h => hjr h.1),
              if_neg (fun h => (List.mem_cons.mp h.1).elim hji hjr)]
          unfold spawnStep
          cases hi : items[i]? with
          | none => rfl
          | some a => exact List.getElem?_set_ne (fun h => hji h.symm)
    · rw [if_neg (fun h => hjn h.2), if_neg (fun h => hjn h.2)]
      unfold spawnStep
      cases hi : items[i]? with
      | none => rfl
      | some a =>
          have hi2 : i < items.length := by
            by_contra hc
            rw [List.getElem?_eq_none (Nat.ge_of_not_lt hc)] at hi
            cases hi
          exact List.getElem?_set_ne (fun h => hjn (by rw [← h]; exact hi2))

theorem runThreads_covering {α β : Type} (f : α → MapResult β) (items : List α)
    (schedule : List Nat) (hcov : ∀ j, j < items.length → j ∈ schedule) :
    runThreads f items schedule = items.map (fun a => some (f a)) := by
  apply List.ext_getElem?
  intro j
  rw [runThreads, foldl_spawnStep_getElem? f items schedule _ (by simp) j]
  by_cases hj : j < items.length
  · rw [if_pos ⟨hcov j hj, hj⟩, List.getElem?_eq_getElem hj,
        List.getElem?_eq_getElem (by simpa using hj)]
    simp
  · have h1 : items.length ≤ j := Nat.ge_of_not_lt hj
    rw [if_neg (fun h => hj h.2), List.getElem?_eq_none (by simpa using h1),
        List.getElem?_eq_none (by simpa using h1)]

theorem collectResults_map_some {α β : Type} (f : α → MapResult β) (items : List α) :
    collectResults (items.map (fun a => some (f a))) = async_map f items := by
  induction items with
  | nil => rfl
  | cons a l ih =>
    simp only [collectResults, async_map, List.map_cons, List.foldr_cons] at *
    rw [ih]
    cases f a <;> rfl

theorem async_map_eq_filterMap {α β : Type} (f : α → MapResult β) (items : List α) :
    async_map f items = (items.map f).filterMap keepValue := by
  induction items with
  | nil => rfl
  | cons a l ih =>
    simp only [async_map, List.map_cons, List.foldr_cons, List.filterMap_cons] at *
    rw [ih]
    cases f a <;> rfl

theorem length_filterMap_keepValue {β : Type} (l : List (MapResult β)) :
    (l.filterMap keepValue).length + l.countP isOMIT = l.length := by
  induction l with
  | nil => rfl
  | cons r t ih =>
    cases r with
    | OMIT =>
      simp only [List.filterMap_cons, List.countP_cons, List.length_cons, keepValue, isOMIT,
        if_true]
      omega
    | value b =>
      simp only [List.filterMap_cons, List.countP_cons, List.length_cons, keepValue, isOMIT,
        Bool.false_eq_true, if_false]
      omega

/-- Claim C3: the fan-out primitive `async_map` returns, for any input
sequence and per-item function, exactly the sequence of `f item` results in
original input order with every `OMIT` (skip) result removed; the output is
independent of the order in which the spawned tasks complete (any completion
schedule covering all indices yields the sequential result), and the output
length is the item count minus the number of items mapped to `OMIT`. -/
theorem claim_C3 {α β : Type} (f : α → MapResult β) (items : List α) (schedule : List Nat)
    (hcov : ∀ j, j < items.length → j ∈ schedule) :
    async_map_scheduled f items schedule = async_map f items ∧
    async_map f items = (items.map f).filterMap keepValue ∧
    (async_map f items).length = items.length - (items.map f).countP isOMIT := by
  refine ⟨?_, async_map_eq_filterMap f items, ?_⟩
  · rw [async_map_scheduled, runThreads_covering f items schedule hcov,
        collectResults_map_some]
  · have h := length_filterMap_keepValue (items.map f)
    have h2 : (items.map f).length = items.length := by simp
    rw [async_map_eq_filterMap]
    omega

/-- Keep even numbers, skip odd ones: a concrete mapped function. -/
def evenKeep : Nat → MapResult Nat :=
  fun n => if n % 2 == 0 then MapResult.value n else MapResult.OMIT

theorem claim_C3_witness :
    (∀ j, j < ([10, 11, 12, 13] : List Nat).length → j ∈ [2, 0, 3, 1]) ∧
    (async_map_scheduled evenKeep [10, 11, 12, 13] [2, 0, 3, 1] =
        async_map evenKeep [10, 11, 12, 13] ∧
      async_map evenKeep [10, 11, 12, 13] =
        (([10, 11, 12, 13] : List Nat).map evenKeep).filterMap keepValue ∧
      (async_map evenKeep [10, 11, 12, 13]).length =
        ([10, 11, 12, 13] : List Nat).length -
          (([10, 11, 12, 13] : List Nat).map evenKeep).countP isOMIT) :=
  ⟨by decide, claim_C3 evenKeep [10, 11, 12, 13] [2, 0, 3, 1] (by decide)⟩

/- ============ Registry state resolver: build selection (cli.py: Baker.is_raw) ============ -/

/-- Embedding of `Baker.is_raw(name, version)`:
`return not self.pushed(name, version) or self.baked(name, version)`.
`pushedO` is the oracle for `self.pushed` (whether the manifest exists in the
remote registry) and `bakedO` for `self.baked` (the stdout of
`docker images -q`, truthy iff non-empty). Python `or` truthiness on the
string result is modelled by testing against the empty string. -/
def is_raw (pushedO : String → String → Bool) (bakedO : String → String → String)
    (name version : String) : Bool :=
  !(pushedO name version) || (bakedO name version != "")

/-- Claim C4: `is_raw` (the build-selection predicate `needs_build`) holds iff
the image is not published remotely or is built locally (docker reported a
non-empty image id list); it is false exactly when the image is published and
not built locally — so a locally-built but unpublished image is selected. -/
theorem claim_C4 (pushedO : String → String → Bool) (bakedO : String → String → String)
    (name version : String) :
    (is_raw pushedO bakedO name version = true ↔
      (pushedO name version = false ∨ bakedO name version ≠ "")) ∧
    (is_raw pushedO bakedO name version = false ↔
      (pushedO name version = true ∧ bakedO name version = "")) := by
  unfold is_raw
  constructor
  · constructor
    · intro h
      rcases Bool.or_eq_true_iff.mp h with h1 | h1
      · left
        cases hpv : pushedO name version
        · rfl
        · rw [hpv] at h1
          cases h1
      · right
        simpa using h1
    · intro h
      rcases h with h1 | h1
      · rw [h1]
        rfl
      · apply Bool.or_eq_true_iff.mpr
        right
        simpa using h1
  · constructor
    · intro h
      rcases Bool.or_eq_false_iff.mp h with ⟨h1, h2⟩
      constructor
      · cases hpv : pushedO name version
        · rw [hpv] at h1
          cases h1
        · rfl
      · simpa using h2
    · intro ⟨h1, h2⟩
      apply Bool.or_eq_false_iff.mpr
      constructor
      · rw [h1]
        rfl
      · simpa using h2

/- ============ Push selection (cli.py: Baker.push) ============ -/

/-- One (service-version, image-name, container-path) triple, as produced by
`containers(services)` and consumed by `Baker.push`. -/
structure PushItem where
  version : String
  name : String
  container : String
deriving DecidableEq, Repr

/-- Embedding of the selection stage of `Baker.push`: the mapped function
returns the triple when `self.baked(name, svc.version)` is truthy and
`self.pushed(name, svc.version)` is false, otherwise the `OMIT` sentinel;
the fan-out collects the surviving triples. -/
def pushSelect (bakedO : String → String → String) (pushedO : String → String → Bool)
    (items : List PushItem) : List PushItem :=
  async_map
    (fun it =>
      if (bakedO it.name it.version != "") && !(pushedO it.name it.version) then
        MapResult.value it
      else MapResult.OMIT)
    items

/-- Embedding of the push stage of `Baker.push`: `docker push` is invoked once
per selected triple, on that triple's image. The command is represented by
the triple it pushes. -/
def pushCommands (bakedO : String → String → String) (pushedO : String → String → Bool)
    (items : List PushItem) : List PushItem :=
  (pushSelect bakedO pushedO items).map (fun it => it)

theorem pushSelect_eq_filter (bakedO : String → String → String)
    (pushedO : String → String → Bool) (items : List PushItem) :
    pushSelect bakedO pushedO items =
      items.filter
        (fun it => (bakedO it.name it.version != "") && !(pushedO it.name it.version)) := by
  induction items with
  | nil => rfl
  | cons it l ih =>
    simp only [pushSelect, async_map, List.map_cons, List.foldr_cons, List.filter_cons] at *
    by_cases h : ((bakedO it.name it.version != "") && !(pushedO it.name it.version)) = true
    · rw [if_pos h, h]
      simpa [pushSelect, async_map] using congrArg (it :: ·) ih
    · rw [if_neg h, Bool.not_eq_true] at *
      rw [h]
      simpa [pushSelect, async_map] using ih

/-- Claim C5: in `Baker.push`, an image triple is selected as a push candidate
iff it is built locally (`baked` output non-empty) and not yet published
(`pushed` false), and `docker push` is invoked for exactly the selected
candidates (one push per candidate, in order). -/
theorem claim_C5 (bakedO : String → String → String) (pushedO : String → String → Bool)
    (items : List PushItem) (it : PushItem) :
    (it ∈ pushSelect bakedO pushedO items ↔
      (it ∈ items ∧ bakedO it.name it.version ≠ "" ∧ pushedO it.name it.version = false)) ∧
    pushCommands bakedO pushedO items = pushSelect bakedO pushedO items := by
  constructor
  · rw [pushSelect_eq_filter, List.mem_filter]
    constructor
    · intro ⟨h1, h2⟩
      rcases Bool.and_eq_true_iff.mp h2 with ⟨hb, hp⟩
      refine ⟨h1, by simpa using hb, by simpa using hp⟩
    · intro ⟨h1, hb, hp⟩
      refine ⟨h1, Bool.and_eq_true_iff.mpr ⟨by simpa using hb, by simpa using hp⟩⟩
  · simp [pushCommands]

/- ============ Registry manifest check (cli.py: Baker.pushed) ============ -/

/-- A registry manifest response as seen by `Baker.pushed`: HTTP status, the
shape of the JSON body (presence of the `signatures` and `fsLayers` sections,
the list of error codes under `errors`, empty when the key is absent or the
list empty), and the raw content used in the `CLIError`. -/
structure RegResponse where
  status : Nat
  hasSignatures : Bool
  hasFsLayers : Bool
  errorCodes : List String
  content : String
deriving DecidableEq, Repr

/-- The body interpretation at the end of `Baker.pushed`: published when both
`signatures` and `fsLayers` are present; not published when the first error
code is `MANIFEST_UNKNOWN`; otherwise a `CLIError` carrying the response
content. -/
def interpretManifest (r : RegResponse) : Except String Bool :=
  if r.hasSignatures && r.hasFsLayers then Except.ok true
  else
    match r.errorCodes with
    | c :: _ => if c = "MANIFEST_UNKNOWN" then Except.ok false else Except.error r.content
    | [] => Except.error r.content

/-- Embedding of `Baker.pushed(name, version)`: the first manifest request
yields `first`; on a 401 the bearer-token handshake is performed and the
authenticated retry yields `retry` (the challenge parsing and token fetch are
the collaborator producing `retry`); the selected response's body is then
interpreted. -/
def pushed (first retry : RegResponse) : Except String Bool :=
  if first.status == 401 then interpretManifest retry else interpretManifest first

/-- A 404 response whose body is not the registry's `MANIFEST_UNKNOWN` error
document (for example an empty JSON object from a proxy). -/
def plain404 : RegResponse :=
  { status := 404, hasSignatures := false, hasFsLayers := false, errorCodes := [],
    content := "404 page not found" }

/-- Claim C6 counterexample: on a 404 whose body carries no
`MANIFEST_UNKNOWN` error document, `Baker.pushed` does not return false — it
raises `CLIError` with the response content. This refutes the claim that a
404 yields "not published" regardless of the body shape. -/
theorem claim_C6_counterexample :
    plain404.status = 404 ∧
    pushed plain404 plain404 = Except.error "404 page not found" ∧
    pushed plain404 plain404 ≠ Except.ok false :=
  ⟨rfl, rfl, fun h => nomatch h⟩

/-- Claim C6 (amended): on a 404 manifest response no bearer handshake
happens, so the outcome depends only on that response's body and is
independent of any retry response; `pushed` returns false exactly when the
404 body does not present both `signatures` and `fsLayers` and its error
list's first code is `MANIFEST_UNKNOWN`; a 404 body presenting both
`signatures` and `fsLayers` makes `pushed` return true; any other 404 body
raises `CLIError` carrying the response content. (The original claim —
false for every 404 body shape — is refuted by `plain404` above.) -/
theorem claim_C6 (r retry1 retry2 : RegResponse) (h404 : r.status = 404) :
    pushed r retry1 = pushed r retry2 ∧
    (pushed r retry1 = Except.ok false ↔
      ((r.hasSignatures && r.hasFsLayers) = false ∧
        r.errorCodes.head? = some "MANIFEST_UNKNOWN")) ∧
    (pushed r retry1 = Except.ok true ↔ (r.hasSignatures && r.hasFsLayers) = true) ∧
    ((r.hasSignatures && r.hasFsLayers) = false →
      r.errorCodes.head? ≠ some "MANIFEST_UNKNOWN" →
      pushed r retry1 = Except.error r.content) := by
  have hne : (r.status == 401) = false := by
    rw [h404]
    rfl
  unfold pushed
  rw [hne]
  simp only [Bool.false_eq_true, if_false]
  refine ⟨by trivial, ?_, ?_, ?_⟩
  · unfold interpretManifest
    cases hsig : (r.hasSignatures && r.hasFsLayers) with
    | true => simp
    | false =>
      simp only [Bool.false_eq_true, if_false]
      cases hec : r.errorCodes with
      | nil => simp
      | cons c rest =>
        by_cases hc : c = "MANIFEST_UNKNOWN"
        · simp [hc]
        · simp [hc]
  · unfold interpretManifest
    cases hsig : (r.hasSignatures && r.hasFsLayers) with
    | true => simp
    | false =>
      simp only [Bool.false_eq_true, if_false]
      cases hec : r.errorCodes with
      | nil => simp
      | cons c rest =>
        by_cases hc : c = "MANIFEST_UNKNOWN"
        · simp [hc]
        · simp [hc]
  · intro hsig herr
    unfold interpretManifest
    rw [hsig]
    simp only [Bool.false_eq_true, if_false]
    cases hec : r.errorCodes with
    | nil => rfl
    | cons c rest =>
      rw [hec] at herr
      simp only [List.head?_cons] at herr
      have hc : ¬(c = "MANIFEST_UNKNOWN") := fun hcc => herr (by rw [hcc])
      simp [hc]

/-- A 404 carrying the registry's standard manifest-unknown error document. -/
def unknown404 : RegResponse :=
  { status := 404, hasSignatures := false, hasFsLayers := false,
    errorCodes := ["MANIFEST_UNKNOWN"], content := "errors: manifest unknown" }

theorem claim_C6_witness :
    unknown404.status = 404 ∧
    (pushed unknown404 plain404 = pushed unknown404 unknown404 ∧
      (pushed unknown404 plain404 = Except.ok false ↔
        ((unknown404.hasSignatures && unknown404.hasFsLayers) = false ∧
          unknown404.errorCodes.head? = some "MANIFEST_UNKNOWN")) ∧
      (pushed unknown404 plain404 = Except.ok true ↔
        (unknown404.hasSignatures && unknown404.hasFsLayers) = true) ∧
      ((unknown404.hasSignatures && unknown404.hasFsLayers) = false →
        unknown404.errorCodes.head? ≠ some "MANIFEST_UNKNOWN" →
        pushed unknown404 plain404 = Except.error unknown404.content)) :=
  ⟨by decide, claim_C6 unknown404 plain404 unknown404 (by decide)⟩

/- ============ Paginated listing (cli.py: next_page, Baker.gh) ============ -/

/-- A GitHub API response as seen by `Baker.gh`: success flag (`response.ok`),
JSON body (a list of items for listing endpoints, an association list of
fields for single-object endpoints), and the parsed `Link` header as
`(rel, url)` pairs (empty when the header is absent). -/
structure PageResponse (α : Type) where
  ok : Bool
  body : List α
  links : List (String × String)
deriving DecidableEq, Repr

/-- Embedding of `next_page(response)`: the url of the first link whose
`rel` is `next`, if any. -/
def next_page {α : Type} (r : PageResponse α) : Option String :=
  match r.links.find? (fun l => l.1 == "next") with
  | some l => some l.2
  | none => none

/-- The `while next_url:` loop of `Baker.gh`, with fuel for termination (the
code itself loops for as long as responses keep carrying next links). Returns
the accumulated result and the total number of GET requests issued. -/
def ghLoop {α : Type} (server : String → PageResponse α) :
    Nat → List α → Option String → Nat → List α × Nat
  | _, acc, none, count => (acc, count)
  | 0, acc, some _, count => (acc, count)
  | fuel + 1, acc, some url, count =>
      ghLoop server fuel (acc ++ (server url).body) (next_page (server url)) (count + 1)

/-- Embedding of `Baker.gh(api)`: one GET for `api`; if the response is ok,
follow `next` links, extending the result with each page's body; otherwise
return the single response's body. Also counts the GET requests issued. -/
def gh {α : Type} (server : String → PageResponse α) (fuel : Nat) (api : String) :
    List α × Nat :=
  if (server api).ok then ghLoop server fuel (server api).body (next_page (server api)) 1
  else ((server api).body, 1)

theorem ghLoop_none {α : Type} (server : String → PageResponse α) (fuel : Nat)
    (acc : List α) (count : Nat) : ghLoop server fuel acc none count = (acc, count) := by
  cases fuel <;> rfl

theorem ghLoop_succ {α : Type} (server : String → PageResponse α) (fuel : Nat)
    (acc : List α) (url : String) (count : Nat) :
    ghLoop server (fuel + 1) acc (some url) count =
      ghLoop server fuel (acc ++ (server url).body) (next_page (server url)) (count + 1) :=
  rfl

/-- Claim C7: for a response chain whose next links are `[u1, u2, u3, none]`,
`Baker.gh` issues exactly 4 GET requests and returns the concatenation of the
four result bodies in request order, stopping exactly at the response with no
next-relation link. -/
theorem claim_C7 {α : Type} (server : String → PageResponse α) (api u1 u2 u3 : String)
    (fuel : Nat) (h0 : (server api).ok = true)
    (l0 : next_page (server api) = some u1)
    (l1 : next_page (server u1) = some u2)
    (l2 : next_page (server u2) = some u3)
    (l3 : next_page (server u3) = none)
    (hfuel : 3 ≤ fuel) :
    gh server fuel api =
      ((server api).body ++ (server u1).body ++ (server u2).body ++ (server u3).body, 4) := by
  obtain ⟨f1, rfl⟩ : ∃ m, fuel = m + 1 := ⟨fuel - 1, by omega⟩
  obtain ⟨f2, rfl⟩ : ∃ m, f1 = m + 1 := ⟨f1 - 1, by omega⟩
  obtain ⟨f3, rfl⟩ : ∃ m, f2 = m + 1 := ⟨f2 - 1, by omega⟩
  rw [gh, if_pos h0, l0, ghLoop_succ, l1, ghLoop_succ, l2, ghLoop_succ, l3, ghLoop_none]

/-- A concrete four-page chain: `"a0"` is the first request, later pages are
served at `"u1"`, `"u2"`, `"u3"`. -/
def chainServer : String → PageResponse Nat := fun u =>
  if u == "u1" then ⟨true, [2], [("next", "u2")]⟩
  else if u == "u2" then ⟨true, [3, 4], [("prev", "u1"), ("next", "u3")]⟩
  else if u == "u3" then ⟨true, [5], [("prev", "u2")]⟩
  else ⟨true, [1], [("next", "u1")]⟩

theorem claim_C7_witness :
    ((chainServer "a0").ok = true ∧ next_page (chainServer "a0") = some "u1" ∧
      next_page (chainServer "u1") = some "u2" ∧
      next_page (chainServer "u2") = some "u3" ∧
      next_page (chainServer "u3") = none ∧ 3 ≤ 5) ∧
    gh chainServer 5 "a0" =
      ((chainServer "a0").body ++ (chainServer "u1").body ++ (chainServer "u2").body ++
        (chainServer "u3").body, 4) :=
  ⟨⟨by decide, by decide, by decide, by decide, by decide, by omega⟩,
    claim_C7 chainServer "a0" "u1" "u2" "u3" 5 (by decide) (by decide) (by decide)
      (by decide) (by decide) (by omega)⟩

/- ============ Verification fetch in pull (cli.py: Baker.pull) ============ -/

/-- Python `"id" in repo` on a JSON object modelled as an association list. -/
def hasKey (d : List (String × String)) (k : String) : Bool :=
  d.any (fun kv => kv.1 == k)

/-- Python `repo[k]` lookup (total here; `pull` only reads fields of objects
that passed the `"id" in repo` check, and GitHub repo objects carry them). -/
def lookupD (d : List (String × String)) (k : String) : String :=
  match d.find? (fun kv => kv.1 == k) with
  | some kv => kv.2
  | none => ""

/-- Embedding of the verification stage of `Baker.pull`: each filtered repo is
re-fetched concurrently (the mapped function wraps the fetched body in
`MapResult.value`, never `OMIT`), and a repo contributes
`(full_name, clone_url)` to the url list exactly when its body has an `id`
key. -/
def pullVerify (fetch : String → List (String × String)) (filtered : List String) :
    List (String × String) :=
  (async_map (fun fn => MapResult.value (fetch fn)) filtered).foldl
    (fun acc repo =>
      if hasKey repo "id" then acc ++ [(lookupD repo "full_name", lookupD repo "clone_url")]
      else acc) []

theorem async_map_value {α β : Type} (g : α → β) (l : List α) :
    async_map (fun x => MapResult.value (g x)) l = l.map g := by
  induction l with
  | nil => rfl
  | cons a t ih =>
    simp only [async_map, List.map_cons, List.foldr_cons] at *
    rw [ih]

theorem foldl_append_filter {α β : Type} (p : α → Bool) (h : α → β) (l : List α)
    (acc : List β) :
    l.foldl (fun acc d => if p d then acc ++ [h d] else acc) acc =
      acc ++ (l.filter p).map h := by
  induction l generalizing acc with
  | nil => simp
  | cons d t ih =>
    simp only [List.foldl_cons, List.filter_cons]
    by_cases hp : p d = true
    · rw [if_pos hp, hp, ih]
      simp
    · rw [if_neg hp, Bool.not_eq_true] at *
      rw [hp, ih]
      simp

/-- Claim C10: when the first response of `Baker.gh` is not ok (for example a
404 tolerated by the `expected` set during pull's verification fetch), `gh`
returns that single response's body as-is after exactly one request, without
following any Link header; and `Baker.pull` excludes such a repository from
synchronization by the absence of an `id` key in that body — the fan-out's
skip marker is never used there (the fan-out output keeps one entry per
repo). -/
theorem claim_C10 {α : Type} (server : String → PageResponse α) (fuel : Nat) (api : String)
    (hnotok : (server api).ok = false)
    (fetch : String → List (String × String)) (filtered : List String) :
    gh server fuel api = ((server api).body, 1) ∧
    pullVerify fetch filtered =
      ((filtered.map fetch).filter (fun d => hasKey d "id")).map
        (fun d => (lookupD d "full_name", lookupD d "clone_url")) ∧
    (async_map (fun fn => MapResult.value (fetch fn)) filtered).length = filtered.length := by
  refine ⟨?_, ?_, ?_⟩
  · rw [gh, if_neg]
    rw [hnotok]
    exact fun h => nomatch h
  · rw [pullVerify, async_map_value, foldl_append_filter]
    rfl
  · rw [async_map_value]
    exact List.length_map _ _

/-- A server whose single response is a tolerated 404 carrying a (dead) next
link, as in pull's verification fetch of a deleted repository. -/
def deadRepoServer : String → PageResponse (String × String) := fun _ =>
  ⟨false, [("message", "Not Found")], [("next", "u1")]⟩

/-- Concrete verification-fetch results: `org/a` still exists, `org/b` is gone. -/
def verifyFetch : String → List (String × String) := fun fn =>
  if fn == "org/a" then [("id", "1"), ("full_name", "org/a"), ("clone_url", "https://ca")]
  else [("message", "Not Found")]

theorem claim_C10_witness :
    ((deadRepoServer "repos/org/b").ok = false) ∧
    (gh deadRepoServer 5 "repos/org/b" = ((deadRepoServer "repos/org/b").body, 1) ∧
      pullVerify verifyFetch ["org/a", "org/b"] =
        (((["org/a", "org/b"] : List String).map verifyFetch).filter
            (fun d => hasKey d "id")).map
          (fun d => (lookupD d "full_name", lookupD d "clone_url")) ∧
      (async_map (fun fn => MapResult.value (verifyFetch fn)) ["org/a", "org/b"]).length =
        (["org/a", "org/b"] : List String).length) :=
  ⟨by decide, claim_C10 deadRepoServer 5 "repos/org/b" (by decide) verifyFetch
    ["org/a", "org/b"]⟩

/- ============ Credential injection (cli.py: inject_token) ============ -/

/-- A segment of an `Elidable` transport value: ordinary text or a `Secret`. -/
inductive ElidPart where
  | plain : String → ElidPart
  | secret : String → ElidPart
deriving DecidableEq, Repr

/-- Python `url.split("://", 1)` (split at the first occurrence only),
implemented structurally on the character list. -/
def splitOnceAux (sep : List Char) : List Char → Option (List Char × List Char)
  | [] => none
  | c :: rest =>
      if sep.isPrefixOf (c :: rest) then some ([], (c :: rest).drop sep.length)
      else
        match splitOnceAux sep rest with
        | some pp => some (c :: pp.1, pp.2)
        | none => none

/-- `url.split("://", 1)` succeeding iff the separator occurs. -/
def splitScheme (url : String) : Option (String × String) :=
  match splitOnceAux "://".toList url.toList with
  | some pp => some (⟨pp.1⟩, ⟨pp.2⟩)
  | none => none

/-- Embedding of `inject_token(url, token)`: with no token the url is
returned as-is (all plain); otherwise the token is spliced in as a `Secret`
segment between `scheme://` and `@rest` (or before `@url` when the url has
no scheme separator). -/
def inject_token (url token : String) : List ElidPart :=
  if token = "" then [ElidPart.plain url]
  else
    match splitScheme url with
    | some su =>
        [ElidPart.plain (su.1 ++ "://"), ElidPart.secret token, ElidPart.plain ("@" ++ su.2)]
    | none => [ElidPart.secret token, ElidPart.plain ("@" ++ url)]

/-- Modelled from the spec: the `Workstream`/`Elidable`/`Secret` rendering
(forge/workstream.py is not under src/) — "any status or log rendering of
this URL must substitute the credential with a fixed redaction marker, never
the raw value". Every `Secret` segment renders as the fixed marker
`<elided>`; plain segments render as themselves. -/
def renderElidable (parts : List ElidPart) : String :=
  String.join (parts.map (fun p => match p with | .plain s => s | .secret _ => "<elided>"))

/-- The plain (renderable-as-is) segment texts. -/
def plainParts (parts : List ElidPart) : List String :=
  parts.filterMap (fun p => match p with | .plain s => some s | .secret _ => none)

/-- The secret segment texts. -/
def secretParts (parts : List ElidPart) : List String :=
  parts.filterMap (fun p => match p with | .plain _ => none | .secret s => some s)

/-- Prefix test on lists, structurally. -/
def listStarts {γ : Type} [DecidableEq γ] : List γ → List γ → Bool
  | [], _ => true
  | _ :: _, [] => false
  | a :: pat, b :: l => if a = b then listStarts pat l else false

/-- Contiguous-sublist test, structurally. -/
def listHasSub {γ : Type} [DecidableEq γ] (pat : List γ) : List γ → Bool
  | [] => listStarts pat []
  | b :: l => listStarts pat (b :: l) || listHasSub pat l

/-- Substring test: does `s` contain `pat`? -/
def strContains (s pat : String) : Bool :=
  listHasSub pat.toList s.toList

/-- Claim C8 counterexample: the rendered redacted URL can still contain the
credential as a literal substring when the credential text happens to occur
in the URL itself — here the token is `a` and the host contains an `a`. The
secret segment is substituted by the marker (the rendering does not reveal
which part was the credential), but the universally quantified "never
contains the literal token/secret substring" is false as stated. -/
theorem claim_C8_counterexample :
    ("a" : String) ≠ "" ∧
    renderElidable (inject_token "https://a.example" "a") = "https://<elided>@a.example" ∧
    strContains (renderElidable (inject_token "https://a.example" "a")) "a" = true := by
  refine ⟨by decide, by decide, by decide⟩

/-- Claim C8 (amended): for every clone URL and non-empty credential,
`inject_token` places the credential only inside a `Secret` segment (the
secret segments are exactly `[token]` and the plain segments are a function
of the URL alone), and rendering substitutes every `Secret` with the fixed
marker, so the rendered status string is identical for any two non-empty
credentials — the rendering reveals nothing about the credential value. (The
literal "never contains the token substring" reading fails only when the
credential text already occurs in the URL itself, see the counterexample.) -/
theorem claim_C8 (url t1 t2 : String) (h1 : t1 ≠ "") (h2 : t2 ≠ "") :
    renderElidable (inject_token url t1) = renderElidable (inject_token url t2) ∧
    secretParts (inject_token url t1) = [t1] ∧
    plainParts (inject_token url t1) = plainParts (inject_token url t2) := by
  unfold inject_token
  rw [if_neg h1, if_neg h2]
  cases hs : splitScheme url with
  | some su => exact ⟨rfl, rfl, rfl⟩
  | none => exact ⟨rfl, rfl, rfl⟩

theorem claim_C8_witness :
    (("sUpErSeCrEt" : String) ≠ "" ∧ ("deadbeef" : String) ≠ "") ∧
    (renderElidable (inject_token "https://github.com/org/repo.git" "sUpErSeCrEt") =
        renderElidable (inject_token "https://github.com/org/repo.git" "deadbeef") ∧
      secretParts (inject_token "https://github.com/org/repo.git" "sUpErSeCrEt") =
        ["sUpErSeCrEt"] ∧
      plainParts (inject_token "https://github.com/org/repo.git" "sUpErSeCrEt") =
        plainParts (inject_token "https://github.com/org/repo.git" "deadbeef")) :=
  ⟨⟨by decide, by decide⟩,
    claim_C8 "https://github.com/org/repo.git" "sUpErSeCrEt" "deadbeef" (by decide) (by decide)⟩

/- ============ Deploy coordinator (cli.py: Baker.deploy) ============ -/

/-- One resource claim: `(resource name, claiming service index, claiming
service name)`. The index identifies the service object (distinct services
may share a name). -/
abbrev ResClaim := String × Nat × String

/-- One recorded conflict: `(resource, owners[resource].name, svc.name)`. -/
abbrev ResConflict := String × String × String

/-- A service as seen by `Baker.deploy`: its name, the resource names its
rendered manifest declares (the `kubectl apply --dry-run -o name` output),
and the path of its generated `kube.yaml`. Manifest rendering itself is the
external templating collaborator. -/
structure DeployService where
  name : String
  resources : List String
  kubeFile : String
deriving DecidableEq, Repr

/-- The per-resource body of the deploy loop: if the resource is already in
`owners` (an insertion-ordered association list, modelling the
`OrderedDict`) append a conflict naming the recorded owner and the current
service; otherwise record the current service as owner. -/
def claimStep (acc : List ResClaim × List ResConflict) (c : ResClaim) :
    List ResClaim × List ResConflict :=
  match acc.1.find? (fun e => e.1 == c.1) with
  | some e => (acc.1, acc.2 ++ [(c.1, e.2.2, c.2.2)])
  | none => (acc.1 ++ [c], acc.2)

/-- The dry-run phase of `Baker.deploy`: every service's resources are
claimed in encounter order, accumulating owners and conflicts. -/
def deployScan (services : List DeployService) : List ResClaim × List ResConflict :=
  services.enum.foldl
    (fun acc p => p.2.resources.foldl (fun a r => claimStep a (r, p.1, p.2.name)) acc)
    ([], [])

/-- The aggregated `CLIError` message: `conflicts: ` followed by one
`<resource> defined by <owner> and <claimant>` item per recorded conflict. -/
def conflictMsg (cs : List ResConflict) : String :=
  "conflicts: " ++
    String.intercalate ", " (cs.map (fun c => c.1 ++ " defined by " ++ c.2.1 ++ " and " ++ c.2.2))

/-- The real apply command for one kube file (`--dry-run` appended when the
operator requested a dry run). -/
def applyCmd (dryRun : Bool) (kubeFile : String) : List String :=
  if dryRun then ["kubectl", "apply", "-f", kubeFile, "--dry-run"]
  else ["kubectl", "apply", "-f", kubeFile]

/-- Embedding of `Baker.deploy`: run the dry-run phase over all services;
if any conflicts were recorded raise the single aggregated `CLIError`,
otherwise apply every service's kube file in generation order. The returned
list is the sequence of `kubectl apply` invocations actually issued. -/
def deploy (services : List DeployService) (dryRun : Bool) :
    Except String (List (List String)) :=
  let acc := deployScan services
  if acc.2.isEmpty then Except.ok (services.map (fun s => applyCmd dryRun s.kubeFile))
  else Except.error (conflictMsg acc.2)

/-- All resource claims of a deploy run, flattened in encounter order. -/
def allClaims (services : List DeployService) : List ResClaim :=
  (services.enum.map (fun p => p.2.resources.map (fun r => (r, p.1, p.2.name)))).flatten

/-- Reference description of the recorded conflicts: walking the claims in
order with `prior` holding every earlier claim, a claim whose resource
already occurred earlier yields a conflict tuple naming the earliest such
claimant (the first owner); every claim, duplicate or not, joins `prior`. -/
def conflictsSpecFrom (prior : List ResClaim) : List ResClaim → List ResConflict
  | [] => []
  | c :: rest =>
      (match prior.find? (fun e => e.1 == c.1) with
       | some e => [(c.1, e.2.2, c.2.2)]
       | none => []) ++ conflictsSpecFrom (prior ++ [c]) rest

theorem find?_middle_invisible (ow : List ResClaim) (c e : ResClaim) (r : String)
    (h : ow.find? (fun x => x.1 == c.1) = some e) (tail : List ResClaim) :
    ((ow ++ [c]) ++ tail).find? (fun x => x.1 == r) =
      (ow ++ tail).find? (fun x => x.1 == r) := by
  rw [List.find?_append, List.find?_append, List.find?_append]
  cases how : ow.find? (fun x => x.1 == r) with
  | some e2 => rfl
  | none =>
    by_cases hc : (c.1 == r) = true
    · have hceq : c.1 = r := by simpa using hc
      rw [← hceq] at how
      rw [h] at how
      exact Option.noConfusion how
    · have hone : List.find? (fun x => x.1 == r) [c] = none := by
        simp only [List.find?_cons, List.find?_nil]
        rw [Bool.not_eq_true] at hc
        rw [hc]
      rw [hone]
      rfl

theorem conflictsSpecFrom_dup (c e : ResClaim) (rest : List ResClaim) :
    ∀ (ow extra : List ResClaim), ow.find? (fun x => x.1 == c.1) = some e →
      conflictsSpecFrom ((ow ++ [c]) ++ extra) rest = conflictsSpecFrom (ow ++ extra) rest := by
  induction rest with
  | nil => intro ow extra h; rfl
  | cons d rest ih =>
    intro ow extra h
    simp only [conflictsSpecFrom]
    rw [find?_middle_invisible ow c e d.1 h extra]
    have hrec := ih ow (extra ++ [d]) h
    simp only [List.append_assoc] at hrec ⊢
    rw [hrec]

theorem foldl_claimStep_conflicts :
    ∀ (claims : List ResClaim) (ow : List ResClaim) (cf : List ResConflict),
      (claims.foldl claimStep (ow, cf)).2 = cf ++ conflictsSpecFrom ow claims := by
  intro claims
  induction claims with
  | nil => intro ow cf; simp [conflictsSpecFrom]
  | cons c rest ih =>
    intro ow cf
    rw [List.foldl_cons]
    cases h : ow.find? (fun x => x.1 == c.1) with
    | some e =>
      have hstep : claimStep (ow, cf) c = (ow, cf ++ [(c.1, e.2.2, c.2.2)]) := by
        unfold claimStep
        rw [h]
      rw [hstep, ih]
      have hd := conflictsSpecFrom_dup c e rest ow [] h
      simp only [List.append_nil] at hd
      simp only [conflictsSpecFrom, h, hd, List.append_assoc]
    | none =>
      have hstep : claimStep (ow, cf) c = (ow ++ [c], cf) := by
        unfold claimStep
        rw [h]
      rw [hstep, ih]
      simp only [conflictsSpecFrom, h, List.nil_append]

theorem foldl_claimStep_owners :
    ∀ (claims : List ResClaim) (ow : List ResClaim) (cf : List ResConflict) (r : String),
      ((claims.foldl claimStep (ow, cf)).1).find? (fun e => e.1 == r) =
        (ow ++ claims).find? (fun e => e.1 == r) := by
  intro claims
  induction claims with
  | nil => intro ow cf r; simp
  | cons c rest ih =>
    intro ow cf r
    rw [List.foldl_cons]
    cases h : ow.find? (fun x => x.1 == c.1) with
    | some e =>
      have hstep : claimStep (ow, cf) c = (ow, cf ++ [(c.1, e.2.2, c.2.2)]) := by
        unfold claimStep
        rw [h]
      rw [hstep, ih]
      have hmid := find?_middle_invisible ow c e r h rest
      rw [show ow ++ c :: rest = (ow ++ [c]) ++ rest by simp, hmid]
    | none =>
      have hstep : claimStep (ow, cf) c = (ow ++ [c], cf) := by
        unfold claimStep
        rw [h]
      rw [hstep, ih]
      rw [show ow ++ c :: rest = (ow ++ [c]) ++ rest by simp]

theorem deployScan_eq_foldl_claims :
    ∀ (l : List (Nat × DeployService)) (acc : List ResClaim × List ResConflict),
      l.foldl
          (fun acc p => p.2.resources.foldl (fun a r => claimStep a (r, p.1, p.2.name)) acc)
          acc =
        ((l.map (fun p => p.2.resources.map (fun r => (r, p.1, p.2.name)))).flatten).foldl
          claimStep acc := by
  intro l
  induction l with
  | nil => intro acc; rfl
  | cons p rest ih =>
    intro acc
    rw [List.foldl_cons, List.map_cons, List.flatten_cons, List.foldl_append, ih]
    congr 1
    rw [List.foldl_map]

/-- A service whose dry-run output lists the same resource name twice. -/
def dupResourceSvc : DeployService :=
  { name := "S", resources := ["volume-a", "volume-a"], kubeFile := "s/kube.yaml" }

/-- Claim C2 counterexample: with a single service whose dry-run output
repeats a resource name, `Baker.deploy` records the conflict
`(volume-a, S, S)` even though the later claim comes from the same service —
the code never compares the claiming service with the recorded owner, so
"recorded if and only if the later claim comes from a different service" is
false as stated. -/
theorem claim_C2_counterexample :
    (deployScan [dupResourceSvc]).2 = [("volume-a", "S", "S")] := by decide

/-- Claim C2 (amended): during a deploy run the first claimant of a resource
name remains its recorded owner and is never overwritten (the owner lookup
equals the first matching claim of the whole run), and every later claim of
an already-claimed resource name — whether it comes from a different service
or from the same service's own duplicate dry-run entry — is recorded as a
conflict tuple naming the first owner and the later claimant; collection
never aborts early: the recorded conflicts cover the claims of all services. -/
theorem claim_C2 (services : List DeployService) (r : String) :
    (deployScan services).1.find? (fun e => e.1 == r) =
      (allClaims services).find? (fun e => e.1 == r) ∧
    (deployScan services).2 = conflictsSpecFrom [] (allClaims services) := by
  unfold deployScan allClaims
  rw [deployScan_eq_foldl_claims]
  constructor
  · rw [foldl_claimStep_owners]
    simp
  · rw [foldl_claimStep_conflicts]
    simp

/-- Claim C1: a deploy run aborts with the single aggregated conflict error
exactly when the dry-run phase recorded at least one conflict, and in that
case performs zero applies (no `kubectl apply` command is issued); with no
recorded conflict it applies every service's kube file, one command per
service, in the order the manifests were generated. -/
theorem claim_C1 (services : List DeployService) (dryRun : Bool) :
    ((deployScan services).2 ≠ [] →
      deploy services dryRun = Except.error (conflictMsg (deployScan services).2)) ∧
    ((deployScan services).2 = [] →
      deploy services dryRun =
        Except.ok (services.map (fun s => applyCmd dryRun s.kubeFile))) ∧
    (∀ applies, deploy services dryRun = Except.ok applies →
      (deployScan services).2 = [] ∧
        applies = services.map (fun s => applyCmd dryRun s.kubeFile)) := by
  refine ⟨?_, ?_, ?_⟩
  · intro h
    unfold deploy
    rw [if_neg]
    simpa using h
  · intro h
    unfold deploy
    rw [if_pos]
    simpa using h
  · intro applies h
    unfold deploy at h
    by_cases hc : (deployScan services).2.isEmpty = true
    · rw [if_pos hc] at h
      cases h
      exact ⟨by simpa using hc, rfl⟩
    · rw [if_neg hc] at h
      exact Except.noConfusion h

/-- Two services claiming overlapping resources (the spec's own example). -/
def svcS1 : DeployService :=
  { name := "S1", resources := ["a", "b"], kubeFile := "s1/kube.yaml" }

/-- Second service of the conflicting pair. -/
def svcS2 : DeployService :=
  { name := "S2", resources := ["b", "c"], kubeFile := "s2/kube.yaml" }

/-- Two services with disjoint resources. -/
def svcT1 : DeployService :=
  { name := "T1", resources := ["a"], kubeFile := "t1/kube.yaml" }

/-- Second service of the disjoint pair. -/
def svcT2 : DeployService :=
  { name := "T2", resources := ["b"], kubeFile := "t2/kube.yaml" }

theorem claim_C1_witness :
    ((deployScan [svcS1, svcS2]).2 ≠ [] ∧
      deploy [svcS1, svcS2] false =
        Except.error (conflictMsg (deployScan [svcS1, svcS2]).2)) ∧
    ((deployScan [svcT1, svcT2]).2 = [] ∧
      deploy [svcT1, svcT2] false =
        Except.ok ([svcT1, svcT2].map (fun s => applyCmd false s.kubeFile))) :=
  ⟨⟨by decide, (claim_C1 [svcS1, svcS2] false).1 (by decide)⟩,
    ⟨by decide, (claim_C1 [svcT1, svcT2] false).2.1 (by decide)⟩⟩

/- ============ Workspace scanner (cli.py: Baker.scan) ============ -/

mutual
/-- A directory tree: name, the `git rev-parse HEAD` revision that would be
reported there, the plain file names it directly contains, and its
subdirectories (in `os.listdir` order). -/
inductive FsTree : Type where
  | dir (name : String) (gitrev : String) (files : List String) (subdirs : FsForest)

/-- A list of sibling directories. -/
inductive FsForest : Type where
  | fnil : FsForest
  | fcons (t : FsTree) (ts : FsForest) : FsForest
end

/-- Directory name. -/
def FsTree.name : FsTree → String
  | .dir n _ _ _ => n

/-- The revision `git rev-parse HEAD` reports in this directory. -/
def FsTree.gitrev : FsTree → String
  | .dir _ g _ _ => g

/-- The plain files directly in this directory. -/
def FsTree.files : FsTree → List String
  | .dir _ _ fs _ => fs

/-- The subdirectories. -/
def FsTree.subdirs : FsTree → FsForest
  | .dir _ _ _ sd => sd

/-- `Baker.EXCLUDED = set([".git"])`. -/
def EXCLUDED : List String := [".git"]

/-- A service record produced by the scan: its captured revision, the path of
its root directory (components relative to the scan root) and its container
context directories (components relative to the service root; the code
stores each context as the relative path of its `Dockerfile`, i.e. this path
plus the constant final component `Dockerfile`). -/
structure ScanService where
  version : String
  root : List String
  containers : List (List String)
deriving DecidableEq, Repr

/-- The result of descending one subtree: recorded prototypes (paths of
their `proto.yaml` files relative to the subtree root), completed services,
and the container context directories that belong to an enclosing service
outside this subtree (dropped at the top level, where `parent` is `None`). -/
structure ScanOut where
  protos : List (List String)
  services : List ScanService
  escaping : List (List String)
deriving DecidableEq, Repr

/-- Re-root a subtree's scan output below the child directory named `n`. -/
def prefixOut (n : String) (o : ScanOut) : ScanOut :=
  { protos := o.protos.map (fun p => n :: p),
    services := o.services.map (fun s => { s with root := n :: s.root }),
    escaping := o.escaping.map (fun p => n :: p) }

mutual
/-- Embedding of the `descend` closure of `Baker.scan`: a directory with
`proto.yaml` records a prototype and is not descended into; otherwise a
directory with `service.yaml` starts a service (capturing the current
revision) which collects its own `Dockerfile` context (if any) and every
context escaping from its children; any other directory passes its own and
its children's contexts upward. Children are visited in order, skipping
`EXCLUDED` names. (In the code a context is appended to the current
service's list at visit time and the service list grows in preorder; this
definition reproduces that order by composition.) -/
def descend : FsTree → ScanOut
  | .dir _ g fs sd =>
    if "proto.yaml" ∈ fs then
      { protos := [["proto.yaml"]], services := [], escaping := [] }
    else
      let sub := descendForest sd
      let own : List (List String) := if "Dockerfile" ∈ fs then [[]] else []
      if "service.yaml" ∈ fs then
        { protos := sub.protos,
          services := { version := g, root := [], containers := own ++ sub.escaping } ::
            sub.services,
          escaping := [] }
      else
        { protos := sub.protos, services := sub.services, escaping := own ++ sub.escaping }

/-- Descend into each subdirectory in order, skipping excluded names, and
concatenate the re-rooted outputs. -/
def descendForest : FsForest → ScanOut
  | .fnil => { protos := [], services := [], escaping := [] }
  | .fcons t ts =>
      let d :=
        if t.name ∈ EXCLUDED then ({ protos := [], services := [], escaping := [] } : ScanOut)
        else prefixOut t.name (descend t)
      let rest := descendForest ts
      { protos := d.protos ++ rest.protos,
        services := d.services ++ rest.services,
        escaping := d.escaping ++ rest.escaping }
end

/-- Embedding of `Baker.scan`: descend from the work directory with no
current service (`parent = None`), so escaping contexts are discarded. -/
def scan (t : FsTree) : List (List String) × List ScanService :=
  ((descend t).protos, (descend t).services)

/- ---------- Path-based reference view of the same tree ---------- -/

/-- Find the subdirectory with the given name. -/
def findChildF : FsForest → String → Option FsTree
  | .fnil, _ => none
  | .fcons t ts, n => if t.name = n then some t else findChildF ts n

/-- Navigate to the directory at a path. -/
def walk : FsTree → List String → Option FsTree
  | t, [] => some t
  | t, n :: p =>
      match findChildF t.subdirs n with
      | some c => walk c p
      | none => none

/-- Does the scan visit (read the entries of) the directory at this path?
The root is always visited; a child is visited when its parent is visited,
the parent is not a prototype, and the step is not excluded. -/
def scannedRec : FsTree → List String → Bool
  | _, [] => true
  | t, n :: p =>
      if "proto.yaml" ∈ t.files then false
      else if n ∈ EXCLUDED then false
      else
        match findChildF t.subdirs n with
        | some c => scannedRec c p
        | none => false

/-- Is the directory at this path an (effective) service marker directory —
`service.yaml` present and not shadowed by `proto.yaml`? -/
def svcMarkerAt (t : FsTree) : Bool :=
  if "service.yaml" ∈ t.files ∧ "proto.yaml" ∉ t.files then true else false

/-- The deepest prefix of the path whose directory carries an effective
service marker: the nearest service-marker ancestor (including the directory
itself). -/
def nearestSvc : FsTree → List String → Option (List String)
  | t, [] => if svcMarkerAt t then some [] else none
  | t, n :: p =>
      match findChildF t.subdirs n with
      | some c =>
          match nearestSvc c p with
          | some q => some (n :: q)
          | none => if svcMarkerAt t then some [] else none
      | none => none

/-- Is there a recordable container context at this path: the directory
exists, is not a prototype, and directly contains a `Dockerfile`? -/
def dockerAt (t : FsTree) (p : List String) : Bool :=
  match walk t p with
  | some d => if "proto.yaml" ∉ d.files ∧ "Dockerfile" ∈ d.files then true else false
  | none => false

/- ---------- Well-formedness: sibling names are distinct ---------- -/

/-- The names of a forest's trees. -/
def namesF : FsForest → List String
  | .fnil => []
  | .fcons t ts => t.name :: namesF ts

mutual
/-- Every level of the tree has pairwise distinct sibling names. -/
def wfT : FsTree → Bool
  | .dir _ _ _ sd => decide ((namesF sd).Nodup) && wfF sd

/-- Forest version of `wfT`. -/
def wfF : FsForest → Bool
  | .fnil => true
  | .fcons t ts => wfT t && wfF ts
end

theorem findChildF_none : ∀ (ff : FsForest) (n : String), n ∉ namesF ff →
    findChildF ff n = none
  | .fnil, _, _ => rfl
  | .fcons t ts, n, h => by
    simp only [namesF, List.mem_cons, not_or] at h
    simp only [findChildF]
    rw [if_neg (fun he => h.1 he.symm)]
    exact findChildF_none ts n h.2

theorem findChildF_mem : ∀ (ff : FsForest) (n : String) (c : FsTree),
    findChildF ff n = some c → n ∈ namesF ff
  | .fnil, _, _, h => Option.noConfusion h
  | .fcons t ts, n, c, h => by
    simp only [findChildF] at h
    by_cases he : t.name = n
    · simp [namesF, he]
    · rw [if_neg he] at h
      simp only [namesF, List.mem_cons]
      exact Or.inr (findChildF_mem ts n c h)

theorem wfF_findChildF : ∀ (ff : FsForest) (n : String) (c : FsTree), wfF ff = true →
    findChildF ff n = some c → wfT c = true
  | .fnil, _, _, _, h => Option.noConfusion h
  | .fcons t ts, n, c, hwf, h => by
    simp only [wfF, Bool.and_eq_true] at hwf
    simp only [findChildF] at h
    by_cases he : t.name = n
    · rw [if_pos he] at h
      cases h
      exact hwf.1
    · rw [if_neg he] at h
      exact wfF_findChildF ts n c hwf.2 h

theorem svcMarkerAt_iff (t : FsTree) :
    svcMarkerAt t = true ↔ ("service.yaml" ∈ t.files ∧ "proto.yaml" ∉ t.files) := by
  by_cases h : "service.yaml" ∈ t.files ∧ "proto.yaml" ∉ t.files <;> simp [svcMarkerAt, h]

theorem forest_escaping_ne_nil : ∀ (ff : FsForest), ([] : List String) ∉ (descendForest ff).escaping
  | .fnil => by simp [descendForest]
  | .fcons t ts => by
    simp only [descendForest, List.mem_append, not_or]
    constructor
    · by_cases hex : t.name ∈ EXCLUDED
      · simp [hex]
      · simp [hex, prefixOut]
    · exact forest_escaping_ne_nil ts

theorem scanned_append : ∀ (p : List String) (t : FsTree) (q : List String),
    scannedRec t (p ++ q) = true → scannedRec t p = true
  | [], _, _, _ => rfl
  | n :: p, t, q, h => by
    simp only [List.cons_append, scannedRec] at h ⊢
    by_cases hproto : "proto.yaml" ∈ t.files
    · rw [if_pos hproto] at h
      exact absurd h (by simp)
    · rw [if_neg hproto] at h ⊢
      by_cases hex : n ∈ EXCLUDED
      · rw [if_pos hex] at h
        exact absurd h (by simp)
      · rw [if_neg hex] at h ⊢
        cases hf : findChildF t.subdirs n with
        | none => rw [hf] at h; exact absurd h (by simp)
        | some c =>
          simp only [hf] at h ⊢
          exact scanned_append p c q h

theorem nearestSvc_some : ∀ (p : List String) (t : FsTree) (q : List String),
    nearestSvc t p = some q →
    ∃ d, walk t q = some d ∧ svcMarkerAt d = true
  | [], t, q, h => by
    simp only [nearestSvc] at h
    by_cases hm : svcMarkerAt t = true
    · rw [if_pos hm] at h
      cases h
      exact ⟨t, rfl, hm⟩
    · rw [if_neg hm] at h
      exact Option.noConfusion h
  | n :: p, t, q, h => by
    simp only [nearestSvc] at h
    cases hf : findChildF t.subdirs n with
    | none =>
      simp only [hf] at h
      exact Option.noConfusion h
    | some c =>
      simp only [hf] at h
      cases hn : nearestSvc c p with
      | some q' =>
        simp only [hn, Option.some_inj] at h
        subst h
        have hrec := nearestSvc_some p c q' hn
        obtain ⟨d, hw, hm⟩ := hrec
        exact ⟨d, by simp [walk, hf, hw], hm⟩
      | none =>
        simp only [hn] at h
        by_cases hm : svcMarkerAt t = true
        · rw [if_pos hm] at h
          simp only [Option.some_inj] at h
          subst h
          exact ⟨t, rfl, hm⟩
        · rw [if_neg hm] at h
          exact Option.noConfusion h

theorem walk_cons_of (name g : String) (fs : List String) (sd : FsForest) (n : String)
    (c : FsTree) (hfind : findChildF sd n = some c) (p : List String) :
    walk (FsTree.dir name g fs sd) (n :: p) = walk c p := by
  simp [walk, FsTree.subdirs, hfind]

theorem dockerAt_cons_of (name g : String) (fs : List String) (sd : FsForest) (n : String)
    (c : FsTree) (hfind : findChildF sd n = some c) (p : List String) :
    dockerAt (FsTree.dir name g fs sd) (n :: p) = dockerAt c p := by
  simp [dockerAt, walk_cons_of name g fs sd n c hfind p]

theorem scannedRec_cons_of (name g : String) (fs : List String) (sd : FsForest)
    (hproto : "proto.yaml" ∉ fs) (n : String) (hex : n ∉ EXCLUDED)
    (c : FsTree) (hfind : findChildF sd n = some c) (p : List String) :
    scannedRec (FsTree.dir name g fs sd) (n :: p) = scannedRec c p := by
  simp only [scannedRec, FsTree.files, FsTree.subdirs]
  rw [if_neg hproto, if_neg hex, hfind]

theorem nearestSvc_cons_some_iff (name g : String) (fs : List String) (sd : FsForest)
    (n : String) (c : FsTree) (hfind : findChildF sd n = some c) (p q : List String) :
    nearestSvc (FsTree.dir name g fs sd) (n :: p) = some (n :: q) ↔
      nearestSvc c p = some q := by
  simp only [nearestSvc, FsTree.subdirs, hfind]
  cases hn : nearestSvc c p with
  | some q' => simp
  | none =>
    by_cases hm : svcMarkerAt (FsTree.dir name g fs sd) = true <;> simp [hm]

theorem nearestSvc_cons_none_iff (name g : String) (fs : List String) (sd : FsForest)
    (hm : svcMarkerAt (FsTree.dir name g fs sd) = false)
    (n : String) (c : FsTree) (hfind : findChildF sd n = some c) (p : List String) :
    nearestSvc (FsTree.dir name g fs sd) (n :: p) = none ↔ nearestSvc c p = none := by
  simp only [nearestSvc, FsTree.subdirs, hfind]
  cases hn : nearestSvc c p with
  | some q' => simp
  | none => simp [hm]

mutual
theorem escaping_iff_tree : ∀ (t : FsTree), wfT t = true → ∀ (p : List String),
    (p ∈ (descend t).escaping ↔
      (scannedRec t p = true ∧ dockerAt t p = true ∧ nearestSvc t p = none))
  | .dir name g fs sd, hwf, p => by
    have hand : (namesF sd).Nodup ∧ wfF sd = true := by simpa [wfT] using hwf
    have hnd : (namesF sd).Nodup := hand.1
    have hwfF : wfF sd = true := hand.2
    by_cases hproto : "proto.yaml" ∈ fs
    · simp only [descend, if_pos hproto]
      constructor
      · intro h
        simp at h
      · intro ⟨h1, h2, h3⟩
        exfalso
        cases p with
        | nil =>
          simp only [dockerAt, walk, FsTree.files] at h2
          rw [if_neg (fun hc => hc.1 hproto)] at h2
          exact absurd h2 (by simp)
        | cons n q =>
          simp only [scannedRec, FsTree.files] at h1
          rw [if_pos hproto] at h1
          exact absurd h1 (by simp)
    · by_cases hsvc : "service.yaml" ∈ fs
      · simp only [descend, if_neg hproto, if_pos hsvc]
        constructor
        · intro h
          simp at h
        · intro ⟨h1, h2, h3⟩
          exfalso
          have hm : svcMarkerAt (FsTree.dir name g fs sd) = true := by
            rw [svcMarkerAt_iff]
            exact ⟨hsvc, hproto⟩
          cases p with
          | nil =>
            simp only [nearestSvc, hm, if_true] at h3
            exact Option.noConfusion h3
          | cons n q =>
            simp only [nearestSvc, FsTree.subdirs] at h3
            cases hf : findChildF sd n with
            | none =>
              simp only [scannedRec, FsTree.files, FsTree.subdirs, hf] at h1
              rw [if_neg hproto] at h1
              by_cases hex : n ∈ EXCLUDED
              · rw [if_pos hex] at h1
                exact absurd h1 (by simp)
              · rw [if_neg hex] at h1
                exact absurd h1 (by simp)
            | some c =>
              simp only [hf] at h3
              cases hn : nearestSvc c q with
              | some q' =>
                simp only [hn] at h3
                exact Option.noConfusion h3
              | none =>
                simp only [hn, hm, if_true] at h3
                exact Option.noConfusion h3
      · simp only [descend, if_neg hproto, if_neg hsvc]
        have hm : svcMarkerAt (FsTree.dir name g fs sd) = false := by
          rw [Bool.eq_false_iff]
          intro hc
          exact hsvc ((svcMarkerAt_iff _).mp hc).1
        cases p with
        | nil =>
          constructor
          · intro h
            rcases List.mem_append.mp h with h | h
            · have hdock : "Dockerfile" ∈ fs := by
                by_cases hd : "Dockerfile" ∈ fs
                · exact hd
                · rw [if_neg hd] at h
                  simp at h
              refine ⟨rfl, ?_, ?_⟩
              · simp [dockerAt, walk, FsTree.files, hproto, hdock]
              · simp [nearestSvc, hm]
            · exact absurd h (forest_escaping_ne_nil sd)
          · intro ⟨h1, h2, h3⟩
            apply List.mem_append.mpr
            left
            have hdock : "Dockerfile" ∈ fs := by
              simp only [dockerAt, walk, FsTree.files] at h2
              by_cases hd : "Dockerfile" ∈ fs
              · exact hd
              · rw [if_neg (fun hc => hd hc.2)] at h2
                exact absurd h2 (by simp)
            rw [if_pos hdock]
            simp
        | cons n q =>
          have hmain := escaping_iff_forest sd hwfF hnd n q
          constructor
          · intro h
            rcases List.mem_append.mp h with h | h
            · by_cases hd : "Dockerfile" ∈ fs
              · rw [if_pos hd] at h
                simp at h
              · rw [if_neg hd] at h
                simp at h
            · obtain ⟨hex, c, hf, hsc, hdo, hne⟩ := hmain.mp h
              refine ⟨?_, ?_, ?_⟩
              · rw [scannedRec_cons_of name g fs sd hproto n hex c hf]
                exact hsc
              · rw [dockerAt_cons_of name g fs sd n c hf]
                exact hdo
              · rw [nearestSvc_cons_none_iff name g fs sd hm n c hf]
                exact hne
          · intro ⟨h1, h2, h3⟩
            apply List.mem_append.mpr
            right
            apply hmain.mpr
            by_cases hex : n ∈ EXCLUDED
            · exfalso
              simp only [scannedRec, FsTree.files, FsTree.subdirs] at h1
              rw [if_neg hproto, if_pos hex] at h1
              exact absurd h1 (by simp)
            · cases hf : findChildF sd n with
              | none =>
                exfalso
                simp only [scannedRec, FsTree.files, FsTree.subdirs, hf] at h1
                rw [if_neg hproto, if_neg hex] at h1
                exact absurd h1 (by simp)
              | some c =>
                refine ⟨hex, c, rfl, ?_, ?_, ?_⟩
                · rw [scannedRec_cons_of name g fs sd hproto n hex c hf] at h1
                  exact h1
                · rw [dockerAt_cons_of name g fs sd n c hf] at h2
                  exact h2
                · rw [nearestSvc_cons_none_iff name g fs sd hm n c hf] at h3
                  exact h3

theorem escaping_iff_forest : ∀ (ff : FsForest), wfF ff = true → (namesF ff).Nodup →
    ∀ (n : String) (p : List String),
    ((n :: p) ∈ (descendForest ff).escaping ↔
      (n ∉ EXCLUDED ∧ ∃ c, findChildF ff n = some c ∧
        (scannedRec c p = true ∧ dockerAt c p = true ∧ nearestSvc c p = none)))
  | .fnil, _, _, n, p => by
    simp [descendForest, findChildF]
  | .fcons t ts, hwf, hnd, n, p => by
    have hand : wfT t = true ∧ wfF ts = true := by simpa [wfF] using hwf
    have hwt : wfT t = true := hand.1
    have hwts : wfF ts = true := hand.2
    have hnds := List.nodup_cons.mp (by simpa [namesF] using hnd)
    have hnotin : t.name ∉ namesF ts := hnds.1
    have hnd2 : (namesF ts).Nodup := hnds.2
    simp only [descendForest]
    by_cases he : t.name = n
    · subst he
      have hfc : findChildF (FsForest.fcons t ts) t.name = some t := by
        simp [findChildF]
      rw [hfc]
      by_cases hex : t.name ∈ EXCLUDED
      · rw [if_pos hex]
        constructor
        · intro h
          exfalso
          have h2 := (escaping_iff_forest ts hwts hnd2 t.name p).mp (by simpa using h)
          obtain ⟨hex2, c, hf2, _⟩ := h2
          exact absurd (findChildF_mem ts t.name c hf2) hnotin
        · intro ⟨hex2, _⟩
          exact absurd hex hex2
      · rw [if_neg hex]
        constructor
        · intro h
          rcases List.mem_append.mp h with h | h
          · simp only [prefixOut, List.mem_map] at h
            obtain ⟨p0, hp0, heq⟩ := h
            have hpp : p0 = p := by
              simpa using heq
            subst hpp
            exact ⟨hex, t, rfl, (escaping_iff_tree t hwt p0).mp hp0⟩
          · exfalso
            have h2 := (escaping_iff_forest ts hwts hnd2 t.name p).mp h
            obtain ⟨_, c, hf2, _⟩ := h2
            exact absurd (findChildF_mem ts t.name c hf2) hnotin
        · intro ⟨hex2, c, hf, hprops⟩
          have hct : c = t := by
            injection hf with hinj
            exact hinj.symm
          subst hct
          apply List.mem_append.mpr
          left
          simp only [prefixOut, List.mem_map]
          exact ⟨p, (escaping_iff_tree c hwt p).mpr hprops, rfl⟩
    · have hfc : findChildF (FsForest.fcons t ts) n = findChildF ts n := by
        simp [findChildF, he]
      rw [hfc]
      by_cases hex : t.name ∈ EXCLUDED
      · rw [if_pos hex]
        have := escaping_iff_forest ts hwts hnd2 n p
        simpa using this
      · rw [if_neg hex]
        constructor
        · intro h
          rcases List.mem_append.mp h with h | h
          · exfalso
            simp only [prefixOut, List.mem_map] at h
            obtain ⟨p0, _, heq⟩ := h
            have hinj : t.name = n ∧ p0 = p := by simpa using heq
            exact he hinj.1
          · exact (escaping_iff_forest ts hwts hnd2 n p).mp h
        · intro h
          exact List.mem_append.mpr (Or.inr ((escaping_iff_forest ts hwts hnd2 n p).mpr h))
end

/-- The properties tying a scanned service record to the tree: its root was
visited, its root directory carries an unshadowed `service.yaml` whose
revision was captured, and its container list holds exactly the context
directories whose nearest service-marker ancestor is this root. -/
def SvcProps (t : FsTree) (s : ScanService) : Prop :=
  scannedRec t s.root = true ∧
  (∃ d, walk t s.root = some d ∧ "service.yaml" ∈ d.files ∧ "proto.yaml" ∉ d.files ∧
    s.version = d.gitrev) ∧
  ∀ rel, rel ∈ s.containers ↔
    (scannedRec t (s.root ++ rel) = true ∧ dockerAt t (s.root ++ rel) = true ∧
     nearestSvc t (s.root ++ rel) = some s.root)

theorem nearestSvc_cons_root_iff (name g : String) (fs : List String) (sd : FsForest)
    (hm : svcMarkerAt (FsTree.dir name g fs sd) = true)
    (n : String) (c : FsTree) (hfind : findChildF sd n = some c) (p : List String) :
    nearestSvc (FsTree.dir name g fs sd) (n :: p) = some [] ↔ nearestSvc c p = none := by
  simp only [nearestSvc, FsTree.subdirs, hfind]
  cases hn : nearestSvc c p with
  | some q' => simp
  | none => simp [hm]

theorem SvcProps_lift (name g : String) (fs : List String) (sd : FsForest)
    (hproto : "proto.yaml" ∉ fs) (n : String) (hex : n ∉ EXCLUDED) (c : FsTree)
    (hfind : findChildF sd n = some c) (s0 : ScanService) (h : SvcProps c s0) :
    SvcProps (FsTree.dir name g fs sd) { s0 with root := n :: s0.root } := by
  obtain ⟨h1, ⟨d, hw, hsv, hpr, hver⟩, h3⟩ := h
  refine ⟨?_, ⟨d, ?_, hsv, hpr, hver⟩, ?_⟩
  · show scannedRec (FsTree.dir name g fs sd) (n :: s0.root) = true
    rw [scannedRec_cons_of name g fs sd hproto n hex c hfind]
    exact h1
  · show walk (FsTree.dir name g fs sd) (n :: s0.root) = some d
    rw [walk_cons_of name g fs sd n c hfind]
    exact hw
  · intro rel
    show rel ∈ s0.containers ↔ _
    rw [h3 rel]
    show _ ↔ (scannedRec (FsTree.dir name g fs sd) ((n :: s0.root) ++ rel) = true ∧
      dockerAt (FsTree.dir name g fs sd) ((n :: s0.root) ++ rel) = true ∧
      nearestSvc (FsTree.dir name g fs sd) ((n :: s0.root) ++ rel) = some (n :: s0.root))
    rw [List.cons_append,
        scannedRec_cons_of name g fs sd hproto n hex c hfind,
        dockerAt_cons_of name g fs sd n c hfind,
        nearestSvc_cons_some_iff name g fs sd n c hfind (s0.root ++ rel) s0.root]

mutual
theorem services_mem_tree : ∀ (t : FsTree), wfT t = true → ∀ s,
    s ∈ (descend t).services → SvcProps t s
  | .dir name g fs sd, hwf, s, hs => by
    have hand : (namesF sd).Nodup ∧ wfF sd = true := by simpa [wfT] using hwf
    by_cases hproto : "proto.yaml" ∈ fs
    · simp only [descend, if_pos hproto] at hs
      simp at hs
    · by_cases hsvc : "service.yaml" ∈ fs
      · simp only [descend, if_neg hproto, if_pos hsvc] at hs
        have hm : svcMarkerAt (FsTree.dir name g fs sd) = true := by
          rw [svcMarkerAt_iff]
          exact ⟨hsvc, hproto⟩
        rcases List.mem_cons.mp hs with hs | hs
        · subst hs
          refine ⟨rfl, ⟨FsTree.dir name g fs sd, rfl, hsvc, hproto, rfl⟩, ?_⟩
          intro rel
          show rel ∈ _ ↔ (scannedRec _ ([] ++ rel) = true ∧ dockerAt _ ([] ++ rel) = true ∧
            nearestSvc _ ([] ++ rel) = some [])
          rw [List.nil_append]
          cases rel with
          | nil =>
            constructor
            · intro h
              rcases List.mem_append.mp h with h | h
              · have hdock : "Dockerfile" ∈ fs := by
                  by_cases hd : "Dockerfile" ∈ fs
                  · exact hd
                  · rw [if_neg hd] at h
                    simp at h
                refine ⟨rfl, ?_, ?_⟩
                · simp [dockerAt, walk, FsTree.files, hproto, hdock]
                · simp [nearestSvc, hm]
              · exact absurd h (forest_escaping_ne_nil sd)
            · intro ⟨hh1, hh2, hh3⟩
              apply List.mem_append.mpr
              left
              have hdock : "Dockerfile" ∈ fs := by
                simp only [dockerAt, walk, FsTree.files] at hh2
                by_cases hd : "Dockerfile" ∈ fs
                · exact hd
                · rw [if_neg (fun hc => hd hc.2)] at hh2
                  exact absurd hh2 (by simp)
              rw [if_pos hdock]
              simp
          | cons n q =>
            have hmain := escaping_iff_forest sd hand.2 hand.1 n q
            constructor
            · intro h
              rcases List.mem_append.mp h with h | h
              · by_cases hd : "Dockerfile" ∈ fs
                · rw [if_pos hd] at h
                  simp at h
                · rw [if_neg hd] at h
                  simp at h
              · obtain ⟨hex, c, hf, hsc, hdo, hne⟩ := hmain.mp h
                refine ⟨?_, ?_, ?_⟩
                · rw [scannedRec_cons_of name g fs sd hproto n hex c hf]
                  exact hsc
                · rw [dockerAt_cons_of name g fs sd n c hf]
                  exact hdo
                · rw [nearestSvc_cons_root_iff name g fs sd hm n c hf]
                  exact hne
            · intro ⟨hh1, hh2, hh3⟩
              apply List.mem_append.mpr
              right
              apply hmain.mpr
              by_cases hex : n ∈ EXCLUDED
              · exfalso
                simp only [scannedRec, FsTree.files, FsTree.subdirs] at hh1
                rw [if_neg hproto, if_pos hex] at hh1
                exact absurd hh1 (by simp)
              · cases hf : findChildF sd n with
                | none =>
                  exfalso
                  simp only [scannedRec, FsTree.files, FsTree.subdirs, hf] at hh1
                  rw [if_neg hproto, if_neg hex] at hh1
                  exact absurd hh1 (by simp)
                | some c =>
                  refine ⟨hex, c, rfl, ?_, ?_, ?_⟩
                  · rw [scannedRec_cons_of name g fs sd hproto n hex c hf] at hh1
                    exact hh1
                  · rw [dockerAt_cons_of name g fs sd n c hf] at hh2
                    exact hh2
                  · rw [nearestSvc_cons_root_iff name g fs sd hm n c hf] at hh3
                    exact hh3
        · obtain ⟨n, c, s0, hex, hf, hprops, hseq⟩ :=
            services_mem_forest sd hand.2 hand.1 s hs
          subst hseq
          exact SvcProps_lift name g fs sd hproto n hex c hf s0 hprops
      · simp only [descend, if_neg hproto, if_neg hsvc] at hs
        obtain ⟨n, c, s0, hex, hf, hprops, hseq⟩ :=
          services_mem_forest sd hand.2 hand.1 s hs
        subst hseq
        exact SvcProps_lift name g fs sd hproto n hex c hf s0 hprops

theorem services_mem_forest : ∀ (ff : FsForest), wfF ff = true → (namesF ff).Nodup →
    ∀ s, s ∈ (descendForest ff).services →
    ∃ n c s0, n ∉ EXCLUDED ∧ findChildF ff n = some c ∧ SvcProps c s0 ∧
      s = { s0 with root := n :: s0.root }
  | .fnil, _, _, s, hs => by simp [descendForest] at hs
  | .fcons t ts, hwf, hnd, s, hs => by
    have hand : wfT t = true ∧ wfF ts = true := by simpa [wfF] using hwf
    have hnds := List.nodup_cons.mp (by simpa [namesF] using hnd)
    simp only [descendForest] at hs
    by_cases hex : t.name ∈ EXCLUDED
    · rw [if_pos hex] at hs
      have hs2 : s ∈ (descendForest ts).services := by simpa using hs
      obtain ⟨n, c, s0, hex2, hf, hp, he⟩ :=
        services_mem_forest ts hand.2 hnds.2 s hs2
      refine ⟨n, c, s0, hex2, ?_, hp, he⟩
      have hne : t.name ≠ n := fun hh => hnds.1 (hh ▸ findChildF_mem ts n c hf)
      simp [findChildF, hne, hf]
    · rw [if_neg hex] at hs
      rcases List.mem_append.mp hs with hs | hs
      · simp only [prefixOut, List.mem_map] at hs
        obtain ⟨s0, hs0, hseq⟩ := hs
        refine ⟨t.name, t, s0, hex, ?_, services_mem_tree t hand.1 s0 hs0, hseq.symm⟩
        simp [findChildF]
      · obtain ⟨n, c, s0, hex2, hf, hp, he⟩ :=
          services_mem_forest ts hand.2 hnds.2 s hs
        have hne : t.name ≠ n := fun hh => hnds.1 (hh ▸ findChildF_mem ts n c hf)
        refine ⟨n, c, s0, hex2, ?_, hp, he⟩
        simp [findChildF, hne, hf]
end

mutual
theorem svc_root_exists_tree : ∀ (t : FsTree) (root : List String) (d : FsTree),
    scannedRec t root = true → walk t root = some d → "service.yaml" ∈ d.files →
    "proto.yaml" ∉ d.files → ∃ s ∈ (descend t).services, s.root = root
  | .dir name g fs sd, [], d, hsc, hw, hsv, hpr => by
    have hd : FsTree.dir name g fs sd = d := by simpa [walk] using hw
    subst hd
    have hsv2 : "service.yaml" ∈ fs := by simpa [FsTree.files] using hsv
    have hpr2 : "proto.yaml" ∉ fs := by simpa [FsTree.files] using hpr
    simp only [descend, if_neg hpr2, if_pos hsv2]
    exact ⟨_, List.mem_cons_self _ _, rfl⟩
  | .dir name g fs sd, n :: root, d, hsc, hw, hsv, hpr => by
    simp only [scannedRec, FsTree.files, FsTree.subdirs] at hsc
    by_cases hproto : "proto.yaml" ∈ fs
    · rw [if_pos hproto] at hsc
      exact absurd hsc (by simp)
    · rw [if_neg hproto] at hsc
      by_cases hex : n ∈ EXCLUDED
      · rw [if_pos hex] at hsc
        exact absurd hsc (by simp)
      · rw [if_neg hex] at hsc
        cases hf : findChildF sd n with
        | none =>
          rw [hf] at hsc
          exact absurd hsc (by simp)
        | some c =>
          simp only [hf] at hsc
          rw [walk_cons_of name g fs sd n c hf] at hw
          obtain ⟨s, hsmem, hsroot⟩ :=
            svc_root_exists_forest sd n c root d hex hf hsc hw hsv hpr
          by_cases hsvc : "service.yaml" ∈ fs
          · simp only [descend, if_neg hproto, if_pos hsvc]
            exact ⟨s, List.mem_cons_of_mem _ hsmem, hsroot⟩
          · simp only [descend, if_neg hproto, if_neg hsvc]
            exact ⟨s, hsmem, hsroot⟩

theorem svc_root_exists_forest : ∀ (ff : FsForest) (n : String) (c : FsTree)
    (root : List String) (d : FsTree), n ∉ EXCLUDED → findChildF ff n = some c →
    scannedRec c root = true → walk c root = some d → "service.yaml" ∈ d.files →
    "proto.yaml" ∉ d.files →
    ∃ s ∈ (descendForest ff).services, s.root = n :: root
  | .fnil, n, c, root, d, hex, hf, _, _, _, _ => Option.noConfusion hf
  | .fcons t ts, n, c, root, d, hex, hf, hsc, hw, hsv, hpr => by
    simp only [findChildF] at hf
    by_cases he : t.name = n
    · subst he
      rw [if_pos rfl] at hf
      have hct : t = c := by injection hf
      subst hct
      obtain ⟨s0, hs0, hr0⟩ := svc_root_exists_tree t root d hsc hw hsv hpr
      refine ⟨{ s0 with root := t.name :: s0.root }, ?_, by simp [hr0]⟩
      simp only [descendForest]
      rw [if_neg hex]
      apply List.mem_append.mpr
      left
      simp only [prefixOut, List.mem_map]
      exact ⟨s0, hs0, rfl⟩
    · rw [if_neg he] at hf
      obtain ⟨s, hsmem, hsr⟩ := svc_root_exists_forest ts n c root d hex hf hsc hw hsv hpr
      refine ⟨s, ?_, hsr⟩
      simp only [descendForest]
      by_cases hext : t.name ∈ EXCLUDED
      · rw [if_pos hext]
        simpa using hsmem
      · rw [if_neg hext]
        exact List.mem_append.mpr (Or.inr hsmem)
end

theorem attributed_iff (t : FsTree) (hwf : wfT t = true) (root rel : List String) :
    (∃ s ∈ (descend t).services, s.root = root ∧ rel ∈ s.containers) ↔
      (scannedRec t (root ++ rel) = true ∧ dockerAt t (root ++ rel) = true ∧
       nearestSvc t (root ++ rel) = some root) := by
  constructor
  · intro ⟨s, hsmem, hsroot, hrel⟩
    have hp := services_mem_tree t hwf s hsmem
    have h3 := (hp.2.2 rel).mp hrel
    rw [hsroot] at h3
    exact h3
  · intro ⟨h1, h2, h3⟩
    have hscroot : scannedRec t root = true := scanned_append root t rel h1
    obtain ⟨d, hwalkd, hmark⟩ := nearestSvc_some (root ++ rel) t root h3
    have hm := (svcMarkerAt_iff d).mp hmark
    obtain ⟨s, hsmem, hsroot⟩ := svc_root_exists_tree t root d hscroot hwalkd hm.1 hm.2
    refine ⟨s, hsmem, hsroot, ?_⟩
    have hp := services_mem_tree t hwf s hsmem
    apply (hp.2.2 rel).mpr
    rw [hsroot]
    exact ⟨h1, h2, h3⟩

/-- Claim C9: (a) a directory whose entries include `proto.yaml` is recorded
as a prototype and its subtree is not descended into (it contributes no
services and no container contexts); (b) under distinct sibling names, a pair
(service root, relative context path) is recorded by the scan exactly when
the context directory is visited by the scan, is not itself a prototype,
directly contains a `Dockerfile`, and its nearest service-marker ancestor is
that service root — in particular a `Dockerfile` anywhere under a prototype
directory is never attributed to any service (such paths are not scanned);
(c) consequently a container context directory belongs to at most one
service: two recorded attributions of the same absolute directory coincide. -/
theorem claim_C9 (t : FsTree) (hwf : wfT t = true) :
    (∀ (name g : String) (fs : List String) (sd : FsForest), "proto.yaml" ∈ fs →
        descend (FsTree.dir name g fs sd) =
          { protos := [["proto.yaml"]], services := [], escaping := [] }) ∧
    (∀ (root rel : List String),
        (∃ s ∈ (scan t).2, s.root = root ∧ rel ∈ s.containers) ↔
          (scannedRec t (root ++ rel) = true ∧ dockerAt t (root ++ rel) = true ∧
           nearestSvc t (root ++ rel) = some root)) ∧
    (∀ (root1 rel1 root2 rel2 : List String),
        (∃ s ∈ (scan t).2, s.root = root1 ∧ rel1 ∈ s.containers) →
        (∃ s ∈ (scan t).2, s.root = root2 ∧ rel2 ∈ s.containers) →
        root1 ++ rel1 = root2 ++ rel2 → root1 = root2 ∧ rel1 = rel2) := by
  refine ⟨?_, ?_, ?_⟩
  · intro name g fs sd hp
    simp [descend, hp]
  · intro root rel
    exact attributed_iff t hwf root rel
  · intro r1 e1 r2 e2 h1 h2 heq
    have a1 := (attributed_iff t hwf r1 e1).mp h1
    have a2 := (attributed_iff t hwf r2 e2).mp h2
    have hn2 : nearestSvc t (r1 ++ e1) = some r2 := by
      rw [heq]
      exact a2.2.2
    have hr : r1 = r2 := by
      have hh := a1.2.2.symm.trans hn2
      simpa using hh
    subst hr
    refine ⟨rfl, ?_⟩
    exact List.append_cancel_left heq

/-- A small workspace: a prototype (with a nested Dockerfile that must not be
attributed), and a service `svcA` with its own Dockerfile, a `web` container
context, and a nested service `svcB` whose Dockerfile belongs to `svcB`, not
`svcA`. -/
def exTree : FsTree :=
  .dir "work" "r0" []
    (.fcons (.dir "proto1" "r1" ["proto.yaml"]
        (.fcons (.dir "inner" "r2" ["Dockerfile"] .fnil) .fnil))
      (.fcons (.dir "svcA" "r3" ["service.yaml", "Dockerfile"]
          (.fcons (.dir "web" "r4" ["Dockerfile"] .fnil)
            (.fcons (.dir "svcB" "r5" ["service.yaml", "Dockerfile"] .fnil) .fnil)))
        .fnil))

theorem claim_C9_witness :
    wfT exTree = true ∧
    ((∀ (name g : String) (fs : List String) (sd : FsForest), "proto.yaml" ∈ fs →
        descend (FsTree.dir name g fs sd) =
          { protos := [["proto.yaml"]], services := [], escaping := [] }) ∧
      (∀ (root rel : List String),
        (∃ s ∈ (scan exTree).2, s.root = root ∧ rel ∈ s.containers) ↔
          (scannedRec exTree (root ++ rel) = true ∧ dockerAt exTree (root ++ rel) = true ∧
           nearestSvc exTree (root ++ rel) = some root)) ∧
      (∀ (root1 rel1 root2 rel2 : List String),
        (∃ s ∈ (scan exTree).2, s.root = root1 ∧ rel1 ∈ s.containers) →
        (∃ s ∈ (scan exTree).2, s.root = root2 ∧ rel2 ∈ s.containers) →
        root1 ++ rel1 = root2 ++ rel2 → root1 = root2 ∧ rel1 = rel2)) :=
  ⟨by decide, claim_C9 exTree (by decide)⟩

theorem exTree_scan_check :
    scan exTree =
      ([["proto1", "proto.yaml"]],
        [{ version := "r3", root := ["svcA"], containers := [[], ["web"]] },
         { version := "r5", root := ["svcA", "svcB"], containers := [[]] }]) := by
  decide
